import Mathlib

/-!
Shallow embedding of the secret-santa core (the `SantaBot` class): history
store, derangement generator, cycle decomposition, penalty scorer, Monte
Carlo optimizer, renderer and history mutator.

The external seeded PRNG (`seedrandom`) is modelled as an abstract stream of
naturals: each JS draw `Math.floor(random() * len)` becomes `stream pos % len`
(every index below `len` is realizable by some float draw, and one draw is
consumed per loop iteration), and the optimizer's per-iteration
`random.int32()` sub-seeds become one abstract inner stream per iteration.
The generator's rejection-sampling `do/while` loop receives explicit fuel;
exhausted fuel yields `none` (the loop failing to terminate).  JS `number`
penalty values are modelled as integers.
-/

namespace Santa

/-- One slot of a participant's history: `some r` means "gave to `r` that
year", `none` is the JS `null` gap (did not give that year). -/
abbrev Slot := Option String

/-- `Arrangement` (source line 3): a list of (giver, receiver) pairs. -/
abbrev Arrangement := List (String × String)

/-- The `Action` enum (source lines 5-8). -/
inductive Action where
  | GaveTo
  | ReceivedFrom
deriving DecidableEq

/-- The `Scoring` interface (source lines 10-13). -/
structure Scoring where
  actions : Action → Int → Int
  rings : List Nat → Int

/-- The `SantaBot` state: the `participants` field, a JS `Map` from name to
history sequence, modelled as an association list in insertion order (JS
`Map` preserves insertion order and has unique keys). -/
structure SantaBot where
  participants : List (String × List Slot)

/-- JS `Map.prototype.get` on the association list: value of the first entry
with the given key. -/
def mapGet {α : Type} (m : List (String × α)) (k : String) : Option α :=
  match m with
  | [] => none
  | (k₂, v) :: rest => if k₂ = k then some v else mapGet rest k

/-- JS `Map.prototype.set`: update the first entry with the key in place,
or append a new entry at the end. -/
def mapSet {α : Type} (m : List (String × α)) (k : String) (v : α) :
    List (String × α) :=
  match m with
  | [] => [(k, v)]
  | (k₂, v₂) :: rest =>
    if k₂ = k then (k, v) :: rest else (k₂, v₂) :: mapSet rest k v

/-- JS `Array.prototype.indexOf` as an option: index of the first element
satisfying the predicate. -/
def firstIdx {α : Type} (p : α → Bool) : List α → Option Nat
  | [] => none
  | x :: t => if p x then some 0 else (firstIdx p t).map (fun i => i + 1)

/-- `getNumYears` (source lines 21-29): maximum history length over all
participants.  The mutable `numYearsCache` is modelled by pure recomputation;
see `applyArrangement` for the one place where the cache's staleness during
a loop is semantically visible. -/
def getNumYears (bot : SantaBot) : Nat :=
  (bot.participants.map (fun e => e.2.length)).foldl Nat.max 0

/-- The rejection-sampling `do/while` of `generateArrangement` (source lines
41-43): draw an index into `pool`, repeat while the drawn receiver equals
the giver.  Returns the accepted index and the next stream position, or
`none` when `fuel` draws were all rejected. -/
def rejectLoop (stream : Nat → Nat) (giver : String) (pool : List String) :
    Nat → Nat → Option (Nat × Nat)
  | 0, _ => none
  | fuel + 1, pos =>
    let i := stream pos % pool.length
    if pool.getD i "" = giver then rejectLoop stream giver pool fuel (pos + 1)
    else some (i, pos + 1)

/-- The first loop of `generateArrangement` (source lines 36-47): assign each
giver a receiver from the shrinking pool; when exactly one candidate remains
it is taken unconditionally (index 0) without consulting the PRNG, otherwise
the rejection sampler draws an index; the chosen receiver is spliced out. -/
def assignLoop (stream : Nat → Nat) (fuel : Nat) :
    List String → List String → Nat → Option Arrangement
  | [], _, _ => some []
  | g :: gs, pool, pos =>
    if pool.length = 1 then
      (assignLoop stream fuel gs (pool.eraseIdx 0) pos).map
        (fun rest => (g, pool.getD 0 "") :: rest)
    else
      match rejectLoop stream g pool fuel pos with
      | none => none
      | some (i, pos₂) =>
        (assignLoop stream fuel gs (pool.eraseIdx i) pos₂).map
          (fun rest => (g, pool.getD i "") :: rest)

/-- The inner `while` of the cycle-ordering phase (source lines 52-57): follow
the giver→receiver chain from `cur`, emitting each giver's pair until an
already-seen giver recurs.  `none` models the JS crash when a chained giver
has no pair in `pre` (`foundPair[1]` on `undefined`); the fuel bound
`participants.length + 1` passed by `reconstruct` can never be exhausted,
because each iteration adds a fresh giver to `seen`. -/
def walk (pre : Arrangement) :
    Nat → List String → Arrangement → String → Option (List String × Arrangement)
  | 0, _, _, _ => none
  | fuel + 1, seen, acc, cur =>
    if cur ∈ seen then some (seen, acc)
    else
      match pre.find? (fun p => decide (p.1 = cur)) with
      | none => none
      | some p => walk pre fuel (cur :: seen) (acc ++ [p]) p.2

/-- One step of the outer `for` loop of the cycle-ordering phase (source
lines 50-58): start a walk at the next participant with the shared
seen-set and output accumulator. -/
def reconstructStep (pre : Arrangement) (fuelW : Nat)
    (st : Option (List String × Arrangement)) (g : String) :
    Option (List String × Arrangement) :=
  match st with
  | none => none
  | some sa => walk pre fuelW sa.1 sa.2 g

/-- The cycle-ordering phase of `generateArrangement` (source lines 48-58):
re-walk the raw pairing from each participant in input order so that each
ring's pairs are emitted contiguously. -/
def reconstruct (pre : Arrangement) (participants : List String) :
    Option Arrangement :=
  (participants.foldl (reconstructStep pre (participants.length + 1))
    (some ([], []))).map Prod.snd

/-- `generateArrangement` (source lines 31-60) with the seeded PRNG abstracted
to `stream` and the rejection sampler fuelled. -/
def generateArrangement (stream : Nat → Nat) (fuel : Nat)
    (participants : List String) : Option Arrangement :=
  match assignLoop stream fuel participants participants 0 with
  | none => none
  | some pre => reconstruct pre participants

/-- The ring-accumulation step shared by `scoreArrangement` (source lines
110-116) and `stagedArrangementToString` (source lines 150-155): extend the
first ring whose last element is the giver, else open a new ring `[g, r]` at
the end. -/
def addPairToRings : List (List String) → String → String → List (List String)
  | [], g, r => [[g, r]]
  | ring :: rest, g, r =>
    if ring.getLast? = some g then (ring ++ [r]) :: rest
    else ring :: addPairToRings rest g r

/-- The rings induced by an arrangement (the cycle decomposition both the
scorer and the renderer perform). -/
def arrangementRings (arr : Arrangement) : List (List String) :=
  arr.foldl (fun rs p => addPairToRings rs p.1 p.2) []

/-- `rings.map((x) => x.length - 1)` (source lines 137 and 192). -/
def ringSizesOf (rings : List (List String)) : List Nat :=
  rings.map (fun x => x.length - 1)

/-- `participants.get(owner)?.indexOf(target) ?? -1` (source lines 118-119 and
126-127) as an option: the JS `-1` sentinel — produced either by the optional
chaining on a missing history entry or by a failed `indexOf` — collapses to
`none`, since the source only ever tests it against `-1`. -/
def foundIndex (bot : SantaBot) (owner target : String) : Option Nat :=
  (mapGet bot.participants owner).bind
    (fun seq => firstIdx (fun s => decide (s = some target)) seq)

/-- The `Action.GaveTo` summand of the scorer's loop (source lines 117-124):
a penalty is charged only when the receiver is found in the giver's history,
at `getNumYears() - foundIndex` years ago. -/
def gaveToTerm (bot : SantaBot) (fns : Scoring) (giver receiver : String) : Int :=
  match foundIndex bot giver receiver with
  | none => 0
  | some i => fns.actions Action.GaveTo ((getNumYears bot : Int) - (i : Int))

/-- The `Action.ReceivedFrom` summand of the scorer's loop (source lines
125-135): the giver looked up in the receiver's history. -/
def receivedFromTerm (bot : SantaBot) (fns : Scoring) (giver receiver : String) : Int :=
  match foundIndex bot receiver giver with
  | none => 0
  | some i => fns.actions Action.ReceivedFrom ((getNumYears bot : Int) - (i : Int))

/-- The loop body of `scoreArrangement` (source lines 110-136): one state
step over (rings, totalPenalty). -/
def scoreStep (bot : SantaBot) (fns : Scoring)
    (st : List (List String) × Int) (p : String × String) :
    List (List String) × Int :=
  (addPairToRings st.1 p.1 p.2,
   st.2 + gaveToTerm bot fns p.1 p.2 + receivedFromTerm bot fns p.1 p.2)

/-- `scoreArrangement` (source lines 107-139). -/
def scoreArrangement (bot : SantaBot) (arr : Arrangement) (fns : Scoring) : Int :=
  let st := arr.foldl (scoreStep bot fns) ([], 0)
  st.2 + fns.rings (ringSizesOf st.1)

/-- The loop of `generateBestArrangement` (source lines 92-103), counting the
remaining iterations down.  `streams j` is the generator stream seeded from
the j-th `random.int32()` sub-seed; `best = none` models the initial state
`bestArrangement = null, bestPenalty = Infinity` (any finite penalty wins).
The outer `none` propagates a non-terminating generation. -/
def bestLoop (bot : SantaBot) (streams : Nat → Nat → Nat) (fuel : Nat)
    (fns : Scoring) (ps : List String) :
    Nat → Nat → Option (Arrangement × Int) → Option (Option (Arrangement × Int))
  | 0, _, best => some best
  | n + 1, j, best =>
    match generateArrangement (streams j) fuel ps with
    | none => none
    | some staged =>
      let p := scoreArrangement bot staged fns
      let keep : Arrangement × Int :=
        match best with
        | none => (staged, p)
        | some bb => if p < bb.2 then (staged, p) else bb
      if keep.2 = 0 then some (some keep)
      else bestLoop bot streams fuel fns ps n (j + 1) (some keep)

/-- `generateBestArrangement` (source lines 83-105).  A JS `number` iteration
budget is taken as an `Int`; the loop `for (let j = 0; j < iterations; j++)`
runs `iterations.toNat` times.  Result: outer `none` = non-terminating
generation, `some none` = the JS `null` return, `some (some a)` = an
arrangement. -/
def generateBestArrangement (bot : SantaBot) (streams : Nat → Nat → Nat)
    (fuel : Nat) (iterations : Int) (fns : Scoring) (ps : List String) :
    Option (Option Arrangement) :=
  (bestLoop bot streams fuel fns ps iterations.toNat 0 none).map
    (fun b => b.map Prod.fst)

/-- The loop of `getNumOptimalArrangements` (source lines 70-79): count the
iterations whose arrangement scores zero; no early exit. -/
def countLoop (bot : SantaBot) (streams : Nat → Nat → Nat) (fuel : Nat)
    (fns : Scoring) (ps : List String) : Nat → Nat → Nat → Option Nat
  | 0, _, c => some c
  | n + 1, j, c =>
    match generateArrangement (streams j) fuel ps with
    | none => none
    | some staged =>
      countLoop bot streams fuel fns ps n (j + 1)
        (if scoreArrangement bot staged fns = 0 then c + 1 else c)

/-- `getNumOptimalArrangements` (source lines 62-81). -/
def getNumOptimalArrangements (bot : SantaBot) (streams : Nat → Nat → Nat)
    (fuel : Nat) (iterations : Int) (fns : Scoring) (ps : List String) :
    Option Nat :=
  countLoop bot streams fuel fns ps iterations.toNat 0 0

/-- The `yearsAgo` value the renderer interpolates (source lines 161 and 174):
`getNumYears() - foundIndex` with the JS `-1` sentinel for "not found" (the
value is only printed when the penalty is nonzero, hence when found). -/
def yearsAgoOf (bot : SantaBot) (owner target : String) : Int :=
  let foundIdx : Int :=
    match foundIndex bot owner target with
    | none => -1
    | some i => (i : Int)
  (getNumYears bot : Int) - foundIdx

/-- The loop body of `stagedArrangementToString` (source lines 148-191): one
state step over (rings, str, totalPenalty).  Only nonzero penalties are
accumulated and printed (the JS `if (penalty)` truthiness test). -/
def renderStep (bot : SantaBot) (fnsOpt : Option Scoring)
    (st : List (List String) × String × Int) (pr : String × String) :
    List (List String) × String × Int :=
  let str1 := st.2.1 ++ pr.1 ++ " gives to " ++ pr.2
  let rings2 := addPairToRings st.1 pr.1 pr.2
  match fnsOpt with
  | none => (rings2, str1 ++ "\n", st.2.2)
  | some fns =>
    let pen1 := gaveToTerm bot fns pr.1 pr.2
    let strs1 : List String :=
      if pen1 ≠ 0 then
        [toString pen1 ++ "-point penalty from repetition " ++
          toString (yearsAgoOf bot pr.1 pr.2) ++ " years ago"]
      else []
    let tot1 := if pen1 ≠ 0 then st.2.2 + pen1 else st.2.2
    let pen2 := receivedFromTerm bot fns pr.1 pr.2
    let strs2 : List String :=
      if pen2 ≠ 0 then
        [toString pen2 ++ "-point penalty from reverse-repetition " ++
          toString (yearsAgoOf bot pr.2 pr.1) ++ " years ago"]
      else []
    let tot2 := if pen2 ≠ 0 then tot1 + pen2 else tot1
    let penStrs := strs1 ++ strs2
    let str2 :=
      if penStrs.length > 0 then
        str1 ++ " (" ++ String.intercalate ", " penStrs ++ ")"
      else str1
    (rings2, str2 ++ "\n", tot2)

/-- `stagedArrangementToString` (source lines 141-203). -/
def stagedArrangementToString (bot : SantaBot) (arr : Arrangement)
    (fnsOpt : Option Scoring) : String :=
  let st := arr.foldl (renderStep bot fnsOpt) ([], "", 0)
  let sizes := ringSizesOf st.1
  let str2 := st.2.1 ++ "Ring Sizes: " ++
    String.intercalate ", " (sizes.map toString)
  match fnsOpt with
  | none => str2
  | some fns =>
    let pen := fns.rings sizes
    let str3 :=
      if pen ≠ 0 then str2 ++ " (" ++ toString pen ++ "-point penalty)"
      else str2
    let tot := if pen ≠ 0 then st.2.2 + pen else st.2.2
    str3 ++ "\nTotal Penalty: " ++ toString tot

/-- One pair of `applyArrangement`'s loop (source lines 206-219).  `n` is the
number of years read through `this.getNumYears()` during the loop: the source
either enters the loop with a warm `numYearsCache` or computes it at the
first pair before any mutation of this call, and the cache is only
invalidated after the loop (line 220), so every pair observes the pre-apply
value — hence `n` is bound once, before the fold. -/
def applyPair (n : Nat) (m : List (String × List Slot)) (g r : String) :
    List (String × List Slot) :=
  match mapGet m g with
  | none => mapSet m g (List.replicate n (none : Slot) ++ [some r])
  | some seq =>
    mapSet m g ((seq ++ List.replicate (n - seq.length) (none : Slot)) ++ [some r])

/-- `applyArrangement` (source lines 205-221). -/
def applyArrangement (bot : SantaBot) (arr : Arrangement) : SantaBot :=
  let n := getNumYears bot
  { participants := arr.foldl (fun m p => applyPair n m p.1 p.2) bot.participants }

/-! ### Helper lemmas -/

theorem ite_add_of_ne (t p : Int) : (if p ≠ 0 then t + p else t) = t + p := by
  by_cases h : p = 0 <;> simp [h]

theorem init_le_foldl_max (l : List Nat) (init : Nat) :
    init ≤ l.foldl Nat.max init := by
  induction l generalizing init with
  | nil => exact Nat.le_refl _
  | cons x t ih =>
    exact Nat.le_trans (Nat.le_max_left init x) (ih (Nat.max init x))

theorem mem_le_foldl_max (l : List Nat) (init a : Nat) (ha : a ∈ l) :
    a ≤ l.foldl Nat.max init := by
  induction l generalizing init with
  | nil => cases ha
  | cons x t ih =>
    rcases List.mem_cons.mp ha with h | h
    · subst h
      exact Nat.le_trans (Nat.le_max_right init a) (init_le_foldl_max t _)
    · exact ih _ h


theorem foldl_max_le (l : List Nat) (init b : Nat) (hinit : init ≤ b)
    (hl : ∀ x ∈ l, x ≤ b) : l.foldl Nat.max init ≤ b := by
  induction l generalizing init with
  | nil => exact hinit
  | cons x t ih =>
    exact ih _ (Nat.max_le.mpr ⟨hinit, hl x (List.mem_cons_self x t)⟩)
      (fun y hy => hl y (List.mem_cons_of_mem x hy))

theorem firstIdx_lt_length {α : Type} (p : α → Bool) (l : List α) (i : Nat)
    (h : firstIdx p l = some i) : i < l.length := by
  induction l generalizing i with
  | nil => simp [firstIdx] at h
  | cons x t ih =>
    by_cases hx : p x
    · simp [firstIdx, hx] at h
      simp only [List.length_cons]
      omega
    · simp [firstIdx, hx] at h
      obtain ⟨j, hj, rfl⟩ := h
      simpa using ih j hj

theorem mapGet_mem {α : Type} (m : List (String × α)) (k : String) (v : α)
    (h : mapGet m k = some v) : (k, v) ∈ m := by
  induction m with
  | nil => simp [mapGet] at h
  | cons e rest ih =>
    obtain ⟨k₁, v₁⟩ := e
    by_cases he : k₁ = k
    · simp [mapGet, he] at h
      subst he
      subst h
      exact List.mem_cons_self _ _
    · simp [mapGet, he] at h
      exact List.mem_cons_of_mem _ (ih h)

theorem length_le_getNumYears (bot : SantaBot) (k : String) (seq : List Slot)
    (h : (k, seq) ∈ bot.participants) : seq.length ≤ getNumYears bot := by
  unfold getNumYears
  exact mem_le_foldl_max _ 0 _ (List.mem_map.mpr ⟨(k, seq), h, rfl⟩)

theorem mapGet_mapSet_self {α : Type} (m : List (String × α)) (k : String) (v : α) :
    mapGet (mapSet m k v) k = some v := by
  induction m with
  | nil => simp [mapGet, mapSet]
  | cons e rest ih =>
    by_cases he : e.1 = k
    · simp [mapSet, he, mapGet]
    · simp [mapSet, he, mapGet, ih]

theorem mapGet_mapSet_ne {α : Type} (m : List (String × α)) (k k₂ : String) (v : α)
    (hne : k ≠ k₂) : mapGet (mapSet m k v) k₂ = mapGet m k₂ := by
  induction m with
  | nil => simp [mapGet, mapSet, hne]
  | cons e rest ih =>
    by_cases he : e.1 = k
    · simp [mapSet, he, mapGet, hne]
    · simp only [mapSet, he, if_false, mapGet]
      by_cases he2 : e.1 = k₂ <;> simp [he2, ih]

theorem mem_mapSet {α : Type} (m : List (String × α)) (k : String) (v : α)
    (kv : String × α) (h : kv ∈ mapSet m k v) : kv ∈ m ∨ kv = (k, v) := by
  induction m with
  | nil => simp [mapSet] at h; simp [h]
  | cons e rest ih =>
    by_cases he : e.1 = k
    · simp [mapSet, he] at h
      rcases h with h | h
      · right; simp [h]
      · left; exact List.mem_cons_of_mem e h
    · simp only [mapSet, he, if_false, List.mem_cons] at h
      rcases h with h | h
      · left; simp [h]
      · rcases ih h with h2 | h2
        · left; exact List.mem_cons_of_mem e h2
        · right; exact h2

theorem scoreFold_snd (bot : SantaBot) (fns : Scoring) (arr : Arrangement)
    (rings : List (List String)) (t : Int) :
    (arr.foldl (scoreStep bot fns) (rings, t)).2
      = t + (arr.map
          (fun p => gaveToTerm bot fns p.1 p.2 + receivedFromTerm bot fns p.1 p.2)).sum := by
  induction arr generalizing rings t with
  | nil => simp
  | cons q rest ih =>
    simp only [List.foldl_cons, scoreStep, List.map_cons, List.sum_cons]
    rw [ih]
    ring

theorem scoreFold_fst (bot : SantaBot) (fns : Scoring) (arr : Arrangement)
    (rings : List (List String)) (t : Int) :
    (arr.foldl (scoreStep bot fns) (rings, t)).1
      = arr.foldl (fun rs p => addPairToRings rs p.1 p.2) rings := by
  induction arr generalizing rings t with
  | nil => rfl
  | cons q rest ih => simp only [List.foldl_cons, scoreStep]; exact ih _ _

theorem scoreArrangement_eq (bot : SantaBot) (arr : Arrangement) (fns : Scoring) :
    scoreArrangement bot arr fns
      = (arr.map
          (fun p => gaveToTerm bot fns p.1 p.2 + receivedFromTerm bot fns p.1 p.2)).sum
        + fns.rings (ringSizesOf (arrangementRings arr)) := by
  show (arr.foldl (scoreStep bot fns) ([], 0)).2
      + fns.rings (ringSizesOf (arr.foldl (scoreStep bot fns) ([], 0)).1) = _
  rw [scoreFold_snd, scoreFold_fst, zero_add]
  rfl

theorem foundIndex_bound (bot : SantaBot) (owner target : String) (i : Nat)
    (h : foundIndex bot owner target = some i) :
    ∃ seq, mapGet bot.participants owner = some seq ∧ i < seq.length := by
  obtain ⟨seq, hm, hf⟩ := Option.bind_eq_some.mp h
  exact ⟨seq, hm, firstIdx_lt_length _ _ _ hf⟩

theorem gaveToTerm_zero (bot : SantaBot) (fns : Scoring) (g r : String)
    (h : ∀ a y, fns.actions a y = 0) : gaveToTerm bot fns g r = 0 := by
  unfold gaveToTerm
  cases foundIndex bot g r with
  | none => rfl
  | some i => exact h _ _

theorem receivedFromTerm_zero (bot : SantaBot) (fns : Scoring) (g r : String)
    (h : ∀ a y, fns.actions a y = 0) : receivedFromTerm bot fns g r = 0 := by
  unfold receivedFromTerm
  cases foundIndex bot r g with
  | none => rfl
  | some i => exact h _ _

theorem scoreArrangement_zero (bot : SantaBot) (arr : Arrangement) (fns : Scoring)
    (ha : ∀ a y, fns.actions a y = 0) (hr : ∀ s, fns.rings s = 0) :
    scoreArrangement bot arr fns = 0 := by
  rw [scoreArrangement_eq, hr]
  have hsum : (arr.map
      (fun p => gaveToTerm bot fns p.1 p.2 + receivedFromTerm bot fns p.1 p.2)).sum = 0 := by
    apply List.sum_eq_zero
    intro x hx
    obtain ⟨p, _, rfl⟩ := List.mem_map.mp hx
    rw [gaveToTerm_zero bot fns _ _ ha, receivedFromTerm_zero bot fns _ _ ha]
    ring
  rw [hsum]
  ring

theorem map_sum_congr {α : Type} (l : List α) (f g : α → Int)
    (h : ∀ x ∈ l, f x = g x) : (l.map f).sum = (l.map g).sum := by
  induction l with
  | nil => rfl
  | cons x t ih =>
    simp only [List.map_cons, List.sum_cons]
    rw [h x (List.mem_cons_self x t), ih (fun y hy => h y (List.mem_cons_of_mem x hy))]

theorem foundIndex_years_pos (bot : SantaBot) (owner target : String) (i : Nat)
    (h : foundIndex bot owner target = some i) :
    1 ≤ (getNumYears bot : Int) - (i : Int) := by
  obtain ⟨seq, hm, hlt⟩ := foundIndex_bound bot owner target i h
  have h2 : seq.length ≤ getNumYears bot :=
    length_le_getNumYears bot owner seq (mapGet_mem _ _ _ hm)
  omega

theorem gaveToTerm_agree (bot : SantaBot) (fns fns₂ : Scoring) (g r : String)
    (h : ∀ a y, 1 ≤ y → fns.actions a y = fns₂.actions a y) :
    gaveToTerm bot fns g r = gaveToTerm bot fns₂ g r := by
  unfold gaveToTerm
  cases hf : foundIndex bot g r with
  | none => rfl
  | some i => exact h _ _ (foundIndex_years_pos bot g r i hf)

theorem receivedFromTerm_agree (bot : SantaBot) (fns fns₂ : Scoring) (g r : String)
    (h : ∀ a y, 1 ≤ y → fns.actions a y = fns₂.actions a y) :
    receivedFromTerm bot fns g r = receivedFromTerm bot fns₂ g r := by
  unfold receivedFromTerm
  cases hf : foundIndex bot r g with
  | none => rfl
  | some i => exact h _ _ (foundIndex_years_pos bot r g i hf)

/-! ### History mutation lemmas (claim C8) -/

theorem mapGet_applyPair_ne (n : Nat) (m : List (String × List Slot))
    (g r g₂ : String) (hne : g ≠ g₂) :
    mapGet (applyPair n m g r) g₂ = mapGet m g₂ := by
  unfold applyPair
  cases mapGet m g <;> exact mapGet_mapSet_ne _ _ _ _ hne

theorem mapGet_applyPair_self (n : Nat) (m : List (String × List Slot))
    (g r : String) (hle : ∀ v, mapGet m g = some v → v.length ≤ n) :
    ∃ seq, mapGet (applyPair n m g r) g = some seq ∧
      seq.getLast? = some (some r) ∧ seq.length = n + 1 := by
  unfold applyPair
  cases hm : mapGet m g with
  | none =>
    refine ⟨_, mapGet_mapSet_self _ _ _, List.getLast?_concat _, ?_⟩
    simp
  | some v =>
    refine ⟨_, mapGet_mapSet_self _ _ _, List.getLast?_concat _, ?_⟩
    have hv : v.length ≤ n := hle v hm
    simp
    omega

theorem applyFold_get_ne (n : Nat) (l : Arrangement)
    (m : List (String × List Slot)) (g : String) (h : ∀ p ∈ l, p.1 ≠ g) :
    mapGet (l.foldl (fun m₂ p => applyPair n m₂ p.1 p.2) m) g = mapGet m g := by
  induction l generalizing m with
  | nil => rfl
  | cons q t ih =>
    rw [List.foldl_cons, ih _ (fun p hp => h p (List.mem_cons_of_mem q hp))]
    exact mapGet_applyPair_ne n m q.1 q.2 g (h q (List.mem_cons_self q t))

theorem applyFold_get (n : Nat) (l : Arrangement) (m : List (String × List Slot))
    (hnd : (l.map Prod.fst).Nodup)
    (hlen : ∀ p ∈ l, ∀ v, mapGet m p.1 = some v → v.length ≤ n) :
    ∀ p ∈ l, ∃ seq,
      mapGet (l.foldl (fun m₂ q => applyPair n m₂ q.1 q.2) m) p.1 = some seq ∧
      seq.getLast? = some (some p.2) ∧ seq.length = n + 1 := by
  induction l generalizing m with
  | nil => intro p hp; cases hp
  | cons q t ih =>
    have hq_notin : ∀ p₂ ∈ t, p₂.1 ≠ q.1 := by
      intro p₂ hp₂ hcontra
      simp only [List.map_cons, List.nodup_cons] at hnd
      exact hnd.1 (List.mem_map.mpr ⟨p₂, hp₂, hcontra⟩)
    have hnd2 : (t.map Prod.fst).Nodup := by
      simp only [List.map_cons, List.nodup_cons] at hnd
      exact hnd.2
    intro p hp
    rw [List.foldl_cons]
    rcases List.mem_cons.mp hp with h | h
    · subst h
      obtain ⟨seq, h1, h2, h3⟩ :=
        mapGet_applyPair_self n m p.1 p.2 (fun v hv => hlen p (List.mem_cons_self p t) v hv)
      exact ⟨seq, by rw [applyFold_get_ne n t _ p.1 hq_notin]; exact h1, h2, h3⟩
    · refine ih _ hnd2 ?_ p h
      intro p₂ hp₂ v hv
      apply hlen p₂ (List.mem_cons_of_mem q hp₂) v
      rw [← hv]
      exact (mapGet_applyPair_ne n m q.1 q.2 p₂.1 (Ne.symm (hq_notin p₂ hp₂))).symm

theorem applyFold_all_le (n : Nat) (l : Arrangement) (m : List (String × List Slot))
    (hnd : (l.map Prod.fst).Nodup)
    (hm : ∀ kv ∈ m, kv.2.length ≤ n + 1)
    (hlen : ∀ p ∈ l, ∀ v, mapGet m p.1 = some v → v.length ≤ n) :
    ∀ kv ∈ l.foldl (fun m₂ q => applyPair n m₂ q.1 q.2) m, kv.2.length ≤ n + 1 := by
  induction l generalizing m with
  | nil => exact hm
  | cons q t ih =>
    have hq_notin : ∀ p₂ ∈ t, p₂.1 ≠ q.1 := by
      intro p₂ hp₂ hcontra
      simp only [List.map_cons, List.nodup_cons] at hnd
      exact hnd.1 (List.mem_map.mpr ⟨p₂, hp₂, hcontra⟩)
    have hnd2 : (t.map Prod.fst).Nodup := by
      simp only [List.map_cons, List.nodup_cons] at hnd
      exact hnd.2
    rw [List.foldl_cons]
    apply ih _ hnd2
    · intro kv hkv
      unfold applyPair at hkv
      cases hget : mapGet m q.1 with
      | none =>
        rw [hget] at hkv
        rcases mem_mapSet _ _ _ _ hkv with h | h
        · exact hm kv h
        · subst h
          simp
      | some v =>
        rw [hget] at hkv
        rcases mem_mapSet _ _ _ _ hkv with h | h
        · exact hm kv h
        · subst h
          have hv : v.length ≤ n := hlen q (List.mem_cons_self q t) v hget
          simp
          omega
    · intro p₂ hp₂ v hv
      apply hlen p₂ (List.mem_cons_of_mem q hp₂) v
      rw [← hv]
      exact (mapGet_applyPair_ne n m q.1 q.2 p₂.1 (Ne.symm (hq_notin p₂ hp₂))).symm

theorem applyArrangement_participants (bot : SantaBot) (arr : Arrangement) :
    (applyArrangement bot arr).participants
      = arr.foldl (fun m q => applyPair (getNumYears bot) m q.1 q.2)
          bot.participants := rfl

theorem getNumYears_applyArrangement (bot : SantaBot) (arr : Arrangement)
    (hne : arr ≠ []) (hnd : (arr.map Prod.fst).Nodup) :
    getNumYears (applyArrangement bot arr) = getNumYears bot + 1 := by
  have hlen : ∀ p ∈ arr, ∀ v, mapGet bot.participants p.1 = some v →
      v.length ≤ getNumYears bot :=
    fun p _ v hv => length_le_getNumYears bot p.1 v (mapGet_mem _ _ _ hv)
  have hall : ∀ kv ∈ (applyArrangement bot arr).participants,
      kv.2.length ≤ getNumYears bot + 1 := by
    intro kv hkv
    rw [applyArrangement_participants] at hkv
    refine applyFold_all_le (getNumYears bot) arr bot.participants hnd ?_ hlen kv hkv
    intro kv₂ hkv₂
    exact Nat.le_succ_of_le (length_le_getNumYears bot kv₂.1 kv₂.2 (by simpa using hkv₂))
  apply Nat.le_antisymm
  · apply foldl_max_le _ 0 _ (Nat.zero_le _)
    intro x hx
    obtain ⟨kv, hkv, rfl⟩ := List.mem_map.mp hx
    exact hall kv hkv
  · obtain ⟨p, hp⟩ := List.exists_mem_of_ne_nil arr hne
    obtain ⟨seq, h1, _, h3⟩ :=
      applyFold_get (getNumYears bot) arr bot.participants hnd hlen p hp
    have hmem : (p.1, seq) ∈ (applyArrangement bot arr).participants := by
      rw [applyArrangement_participants]
      exact mapGet_mem _ _ _ h1
    calc getNumYears bot + 1 = seq.length := h3.symm
      _ ≤ getNumYears (applyArrangement bot arr) := length_le_getNumYears _ _ _ hmem

/-! ### Generator lemmas (claims C1 and C4) -/

theorem rejectLoop_some (stream : Nat → Nat) (giver : String) (pool : List String)
    (hpool : 0 < pool.length) :
    ∀ (fuel pos i pos₂ : Nat),
    rejectLoop stream giver pool fuel pos = some (i, pos₂) →
    i < pool.length ∧ pool.getD i "" ≠ giver := by
  intro fuel
  induction fuel with
  | zero => intro pos i pos₂ h; simp [rejectLoop] at h
  | succ n ih =>
    intro pos i pos₂ h
    rw [rejectLoop] at h
    by_cases hc : pool.getD (stream pos % pool.length) "" = giver
    · rw [if_pos hc] at h
      exact ih (pos + 1) i pos₂ h
    · rw [if_neg hc] at h
      simp only [Option.some.injEq, Prod.mk.injEq] at h
      obtain ⟨rfl, rfl⟩ := h
      exact ⟨Nat.mod_lt _ hpool, hc⟩

theorem getD_cons_eraseIdx_perm {α : Type} (d : α) :
    ∀ (l : List α) (i : Nat), i < l.length →
    List.Perm l (l.getD i d :: l.eraseIdx i) := by
  intro l
  induction l with
  | nil => intro i h; simp at h
  | cons x t ih =>
    intro i h
    cases i with
    | zero =>
      simp only [List.getD_cons_zero, List.eraseIdx_cons_zero]
      exact List.Perm.refl _
    | succ j =>
      have hp := ih j (by simpa using h)
      simp only [List.getD_cons_succ, List.eraseIdx_cons_succ]
      exact (List.Perm.cons x hp).trans (List.Perm.swap _ _ _)

theorem assignLoop_map_fst (stream : Nat → Nat) (fuel : Nat) :
    ∀ (givers pool : List String) (pos : Nat) (l : Arrangement),
    assignLoop stream fuel givers pool pos = some l →
    l.map Prod.fst = givers := by
  intro givers
  induction givers with
  | nil =>
    intro pool pos l h
    simp only [assignLoop, Option.some.injEq] at h
    subst h
    rfl
  | cons g gs ih =>
    intro pool pos l h
    rw [assignLoop] at h
    by_cases h1 : pool.length = 1
    · rw [if_pos h1] at h
      obtain ⟨rest, hrest, rfl⟩ := Option.map_eq_some'.mp h
      simp only [List.map_cons]
      rw [ih _ _ _ hrest]
    · rw [if_neg h1] at h
      cases hr : rejectLoop stream g pool fuel pos with
      | none => rw [hr] at h; cases h
      | some ip =>
        rw [hr] at h
        obtain ⟨rest, hrest, rfl⟩ := Option.map_eq_some'.mp h
        simp only [List.map_cons]
        rw [ih _ _ _ hrest]

theorem assignLoop_map_snd_perm (stream : Nat → Nat) (fuel : Nat) :
    ∀ (givers pool : List String) (pos : Nat) (l : Arrangement),
    pool.length = givers.length →
    assignLoop stream fuel givers pool pos = some l →
    List.Perm (l.map Prod.snd) pool := by
  intro givers
  induction givers with
  | nil =>
    intro pool pos l hlen h
    simp only [assignLoop, Option.some.injEq] at h
    subst h
    have : pool = [] := List.length_eq_zero.mp (by simpa using hlen)
    subst this
    exact List.Perm.refl _
  | cons g gs ih =>
    intro pool pos l hlen h
    rw [assignLoop] at h
    by_cases h1 : pool.length = 1
    · rw [if_pos h1] at h
      obtain ⟨rest, hrest, rfl⟩ := Option.map_eq_some'.mp h
      have hgs : gs = [] := by
        apply List.length_eq_zero.mp
        simp only [List.length_cons] at hlen
        omega
      subst hgs
      simp only [assignLoop, Option.some.injEq] at hrest
      subst hrest
      obtain ⟨x, rfl⟩ : ∃ x, pool = [x] := by
        cases pool with
        | nil => simp at h1
        | cons y t =>
          cases t with
          | nil => exact ⟨y, rfl⟩
          | cons z t₂ => simp at h1
      exact List.Perm.refl _
    · rw [if_neg h1] at h
      cases hr : rejectLoop stream g pool fuel pos with
      | none => rw [hr] at h; cases h
      | some ip =>
        rw [hr] at h
        obtain ⟨rest, hrest, rfl⟩ := Option.map_eq_some'.mp h
        have hpos : 0 < pool.length := by
          simp only [List.length_cons] at hlen
          omega
        have hi : ip.1 < pool.length :=
          (rejectLoop_some stream g pool hpos fuel pos ip.1 ip.2 (by rw [hr])).1
        have hlen2 : (pool.eraseIdx ip.1).length = gs.length := by
          rw [List.length_eraseIdx]
          rw [if_pos hi]
          simp only [List.length_cons] at hlen
          omega
        have hperm := ih (pool.eraseIdx ip.1) ip.2 rest hlen2 hrest
        simp only [List.map_cons]
        exact (List.Perm.cons _ hperm).trans
          ((getD_cons_eraseIdx_perm "" pool ip.1 hi).symm)

theorem assignLoop_self_last (stream : Nat → Nat) (fuel : Nat) :
    ∀ (givers pool : List String) (pos : Nat) (l : Arrangement),
    pool.length = givers.length →
    assignLoop stream fuel givers pool pos = some l →
    ∀ p ∈ l, p.1 = p.2 → givers.getLast? = some p.1 := by
  intro givers
  induction givers with
  | nil =>
    intro pool pos l hlen h p hp
    simp only [assignLoop, Option.some.injEq] at h
    subst h
    cases hp
  | cons g gs ih =>
    intro pool pos l hlen h p hp hself
    rw [assignLoop] at h
    by_cases h1 : pool.length = 1
    · rw [if_pos h1] at h
      obtain ⟨rest, hrest, rfl⟩ := Option.map_eq_some'.mp h
      have hgs : gs = [] := by
        apply List.length_eq_zero.mp
        simp only [List.length_cons] at hlen
        omega
      subst hgs
      simp only [assignLoop, Option.some.injEq] at hrest
      subst hrest
      rcases List.mem_cons.mp hp with h2 | h2
      · subst h2
        rfl
      · cases h2
    · rw [if_neg h1] at h
      cases hr : rejectLoop stream g pool fuel pos with
      | none => rw [hr] at h; cases h
      | some ip =>
        rw [hr] at h
        obtain ⟨rest, hrest, rfl⟩ := Option.map_eq_some'.mp h
        have hpos : 0 < pool.length := by
          simp only [List.length_cons] at hlen
          omega
        have hne : pool.getD ip.1 "" ≠ g :=
          (rejectLoop_some stream g pool hpos fuel pos ip.1 ip.2 (by rw [hr])).2
        rcases List.mem_cons.mp hp with h2 | h2
        · exfalso
          subst h2
          exact hne hself.symm
        · have hlen2 : (pool.eraseIdx ip.1).length = gs.length := by
            have hi : ip.1 < pool.length :=
              (rejectLoop_some stream g pool hpos fuel pos ip.1 ip.2 (by rw [hr])).1
            rw [List.length_eraseIdx, if_pos hi]
            simp only [List.length_cons] at hlen
            omega
          have hlast := ih (pool.eraseIdx ip.1) ip.2 rest hlen2 hrest p h2 hself
          cases gs with
          | nil => simp [List.getLast?] at hlast
          | cons g₂ t => rw [List.getLast?_cons_cons]; exact hlast

theorem filter_mem_cons_perm (pre : Arrangement) :
    ∀ (cur : String) (q : String × String) (seen : List String),
    (pre.map Prod.fst).Nodup →
    pre.find? (fun p => decide (p.1 = cur)) = some q →
    cur ∉ seen →
    List.Perm (pre.filter (fun p => decide (p.1 ∈ cur :: seen)))
      ((pre.filter (fun p => decide (p.1 ∈ seen))) ++ [q]) := by
  induction pre with
  | nil => intro cur q seen _ hq _; simp [List.find?] at hq
  | cons x t ih =>
    intro cur q seen hnd hq hcur
    have hnd1 : x.1 ∉ t.map Prod.fst := by
      simp only [List.map_cons, List.nodup_cons] at hnd
      exact hnd.1
    have hnd2 : (t.map Prod.fst).Nodup := by
      simp only [List.map_cons, List.nodup_cons] at hnd
      exact hnd.2
    by_cases hx : x.1 = cur
    · have hqx : q = x := by
        simp only [List.find?, hx, decide_True] at hq
        exact (Option.some.inj hq).symm
      rw [hqx]
      rw [List.filter_cons, List.filter_cons]
      have hnew : decide (x.1 ∈ cur :: seen) = true := by simp [hx]
      have hold : decide (x.1 ∈ seen) = false := by
        simp only [decide_eq_false_iff_not]
        rw [hx]
        exact hcur
      rw [hnew, hold]
      simp only [if_true, if_false]
      have ht : t.filter (fun p => decide (p.1 ∈ cur :: seen))
          = t.filter (fun p => decide (p.1 ∈ seen)) := by
        apply List.filter_congr
        intro p hp
        have hpne : p.1 ≠ cur := by
          intro hc
          exact hnd1 (List.mem_map.mpr ⟨p, hp, by rw [hc, hx]⟩)
        simp [List.mem_cons, hpne]
      rw [ht]
      exact (List.perm_append_singleton x _).symm
    · have hq2 : t.find? (fun p => decide (p.1 = cur)) = some q := by
        simpa only [List.find?, hx, decide_False] using hq
      rw [List.filter_cons, List.filter_cons]
      have hsame : decide (x.1 ∈ cur :: seen) = decide (x.1 ∈ seen) := by
        simp [List.mem_cons, hx]
      rw [hsame]
      by_cases hxs : decide (x.1 ∈ seen) = true
      · rw [hxs]
        simp only [if_true, List.cons_append]
        exact List.Perm.cons x (ih cur q seen hnd2 hq2 hcur)
      · rw [Bool.not_eq_true] at hxs
        rw [hxs]
        simp only [Bool.false_eq_true, if_false]
        exact ih cur q seen hnd2 hq2 hcur

theorem walk_subset (pre : Arrangement) :
    ∀ (fuel : Nat) (seen : List String) (acc : Arrangement) (cur : String)
      (seen₂ : List String) (acc₂ : Arrangement),
    walk pre fuel seen acc cur = some (seen₂, acc₂) →
    ∀ p ∈ acc₂, p ∈ acc ∨ p ∈ pre := by
  intro fuel
  induction fuel with
  | zero => intro seen acc cur s₂ a₂ h; simp [walk] at h
  | succ n ih =>
    intro seen acc cur s₂ a₂ h p hp
    rw [walk] at h
    by_cases hc : cur ∈ seen
    · rw [if_pos hc] at h
      simp only [Option.some.injEq, Prod.mk.injEq] at h
      obtain ⟨rfl, rfl⟩ := h
      exact Or.inl hp
    · rw [if_neg hc] at h
      cases hf : pre.find? (fun p₂ => decide (p₂.1 = cur)) with
      | none => rw [hf] at h; cases h
      | some q =>
        rw [hf] at h
        rcases ih _ _ _ _ _ h p hp with h2 | h2
        · rcases List.mem_append.mp h2 with h3 | h3
          · exact Or.inl h3
          · right
            have hpq : p = q := by simpa using h3
            subst hpq
            exact List.mem_of_find?_eq_some hf
        · exact Or.inr h2

theorem walk_perm (pre : Arrangement) (hnd : (pre.map Prod.fst).Nodup) :
    ∀ (fuel : Nat) (seen : List String) (acc : Arrangement) (cur : String)
      (seen₂ : List String) (acc₂ : Arrangement),
    walk pre fuel seen acc cur = some (seen₂, acc₂) →
    List.Perm acc (pre.filter (fun p => decide (p.1 ∈ seen))) →
    List.Perm acc₂ (pre.filter (fun p => decide (p.1 ∈ seen₂)))
      ∧ (∀ x ∈ seen, x ∈ seen₂) ∧ cur ∈ seen₂ := by
  intro fuel
  induction fuel with
  | zero => intro seen acc cur s₂ a₂ h _; simp [walk] at h
  | succ n ih =>
    intro seen acc cur s₂ a₂ h hacc
    rw [walk] at h
    by_cases hc : cur ∈ seen
    · rw [if_pos hc] at h
      simp only [Option.some.injEq, Prod.mk.injEq] at h
      obtain ⟨rfl, rfl⟩ := h
      exact ⟨hacc, fun x hx => hx, hc⟩
    · rw [if_neg hc] at h
      cases hf : pre.find? (fun p₂ => decide (p₂.1 = cur)) with
      | none => rw [hf] at h; cases h
      | some q =>
        rw [hf] at h
        have hstep : List.Perm (acc ++ [q])
            (pre.filter (fun p => decide (p.1 ∈ cur :: seen))) :=
          (hacc.append_right [q]).trans
            (filter_mem_cons_perm pre cur q seen hnd hf hc).symm
        obtain ⟨hperm, hmono, _⟩ := ih _ _ _ _ _ h hstep
        exact ⟨hperm, fun x hx => hmono x (List.mem_cons_of_mem cur hx),
          hmono cur (List.mem_cons_self cur seen)⟩

theorem reconstructFold_none (pre : Arrangement) (fuelW : Nat)
    (todo : List String) :
    todo.foldl (reconstructStep pre fuelW) none = none := by
  induction todo with
  | nil => rfl
  | cons g gs ih => exact ih

theorem reconstructFold_subset (pre : Arrangement) (fuelW : Nat) :
    ∀ (todo : List String) (seen : List String) (acc : Arrangement)
      (st₂ : List String × Arrangement),
    todo.foldl (reconstructStep pre fuelW) (some (seen, acc)) = some st₂ →
    ∀ p ∈ st₂.2, p ∈ acc ∨ p ∈ pre := by
  intro todo
  induction todo with
  | nil =>
    intro seen acc st₂ h p hp
    simp only [List.foldl_nil, Option.some.injEq] at h
    subst h
    exact Or.inl hp
  | cons g gs ih =>
    intro seen acc st₂ h p hp
    rw [List.foldl_cons] at h
    have h₂ : gs.foldl (reconstructStep pre fuelW) (walk pre fuelW seen acc g)
        = some st₂ := h
    cases hw : walk pre fuelW seen acc g with
    | none =>
      rw [hw, reconstructFold_none] at h₂
      cases h₂
    | some sa =>
      rw [hw] at h₂
      rcases ih sa.1 sa.2 st₂ h₂ p hp with h3 | h3
      · exact walk_subset pre fuelW seen acc g sa.1 sa.2 (by rw [hw]) p h3
      · exact Or.inr h3

theorem reconstructFold_perm (pre : Arrangement) (hnd : (pre.map Prod.fst).Nodup)
    (fuelW : Nat) :
    ∀ (todo : List String) (seen : List String) (acc : Arrangement)
      (st₂ : List String × Arrangement),
    todo.foldl (reconstructStep pre fuelW) (some (seen, acc)) = some st₂ →
    List.Perm acc (pre.filter (fun p => decide (p.1 ∈ seen))) →
    List.Perm st₂.2 (pre.filter (fun p => decide (p.1 ∈ st₂.1)))
      ∧ (∀ x ∈ seen, x ∈ st₂.1) ∧ (∀ g ∈ todo, g ∈ st₂.1) := by
  intro todo
  induction todo with
  | nil =>
    intro seen acc st₂ h hacc
    simp only [List.foldl_nil, Option.some.injEq] at h
    subst h
    exact ⟨hacc, fun x hx => hx, fun g hg => absurd hg (List.not_mem_nil g)⟩
  | cons g gs ih =>
    intro seen acc st₂ h hacc
    rw [List.foldl_cons] at h
    have h₂ : gs.foldl (reconstructStep pre fuelW) (walk pre fuelW seen acc g)
        = some st₂ := h
    cases hw : walk pre fuelW seen acc g with
    | none =>
      rw [hw, reconstructFold_none] at h₂
      cases h₂
    | some sa =>
      rw [hw] at h₂
      obtain ⟨hperm3, hmono3, hg3⟩ :=
        walk_perm pre hnd fuelW seen acc g sa.1 sa.2 (by rw [hw]) hacc
      obtain ⟨hperm, hmono, hgs⟩ := ih sa.1 sa.2 st₂ h₂ hperm3
      refine ⟨hperm, fun x hx => hmono x (hmono3 x hx), ?_⟩
      intro g₂ hg₂
      rcases List.mem_cons.mp hg₂ with h4 | h4
      · subst h4
        exact hmono g₂ hg3
      · exact hgs g₂ h4

theorem generateArrangement_perm (stream : Nat → Nat) (fuel : Nat)
    (ps : List String) (res : Arrangement) (hnd : ps.Nodup)
    (hgen : generateArrangement stream fuel ps = some res) :
    ∃ pre, assignLoop stream fuel ps ps 0 = some pre ∧ List.Perm res pre := by
  unfold generateArrangement at hgen
  cases ha : assignLoop stream fuel ps ps 0 with
  | none => rw [ha] at hgen; cases hgen
  | some pre =>
    rw [ha] at hgen
    refine ⟨pre, rfl, ?_⟩
    unfold reconstruct at hgen
    obtain ⟨st₂, hfold, hsnd⟩ := Option.map_eq_some'.mp hgen
    have hfst : pre.map Prod.fst = ps := assignLoop_map_fst stream fuel ps ps 0 pre ha
    have hndpre : (pre.map Prod.fst).Nodup := by rw [hfst]; exact hnd
    have hinit : List.Perm ([] : Arrangement)
        (pre.filter (fun p => decide (p.1 ∈ ([] : List String)))) := by
      have hemp : pre.filter (fun p => decide (p.1 ∈ ([] : List String))) = [] :=
        List.filter_eq_nil_iff.mpr (fun p _ => by simp)
      rw [hemp]
    obtain ⟨hperm, _, hcover⟩ :=
      reconstructFold_perm pre hndpre (ps.length + 1) ps [] [] st₂ hfold hinit
    have hfull : pre.filter (fun p => decide (p.1 ∈ st₂.1)) = pre := by
      apply List.filter_eq_self.mpr
      intro p hp
      have hps : p.1 ∈ ps := by
        rw [← hfst]
        exact List.mem_map.mpr ⟨p, hp, rfl⟩
      simp [hcover p.1 hps]
    rw [hfull] at hperm
    rw [← hsnd]
    exact hperm

theorem generateArrangement_mem_pre (ps : List String) (res pre : Arrangement)
    (hrec : reconstruct pre ps = some res) :
    ∀ p ∈ res, p ∈ pre := by
  intro p hp
  unfold reconstruct at hrec
  obtain ⟨st₂, hfold, hsnd⟩ := Option.map_eq_some'.mp hrec
  rcases reconstructFold_subset pre (ps.length + 1) ps [] [] st₂ hfold p
      (by rw [hsnd]; exact hp) with h | h
  · cases h
  · exact h

theorem sum_ringSizes_addPair (rings : List (List String)) (g r : String) :
    (ringSizesOf (addPairToRings rings g r)).sum = (ringSizesOf rings).sum + 1 := by
  induction rings with
  | nil => simp [addPairToRings, ringSizesOf]
  | cons ring rest ih =>
    unfold addPairToRings
    by_cases hl : ring.getLast? = some g
    · rw [if_pos hl]
      have hne : ring ≠ [] := by
        intro hcontra
        rw [hcontra] at hl
        simp [List.getLast?] at hl
      have hlen : 1 ≤ ring.length := List.length_pos.mpr hne
      simp only [ringSizesOf, List.map_cons, List.sum_cons, List.length_append,
        List.length_cons, List.length_nil]
      omega
    · rw [if_neg hl]
      simp only [ringSizesOf, List.map_cons, List.sum_cons] at ih ⊢
      omega

theorem sum_ringSizes_fold (arr : Arrangement) :
    ∀ rings : List (List String),
    (ringSizesOf (arr.foldl (fun rs p => addPairToRings rs p.1 p.2) rings)).sum
      = (ringSizesOf rings).sum + arr.length := by
  induction arr with
  | nil => intro rings; simp
  | cons q rest ih =>
    intro rings
    rw [List.foldl_cons, ih (addPairToRings rings q.1 q.2), sum_ringSizes_addPair]
    simp only [List.length_cons]
    omega

theorem sum_ringSizes_arrangementRings (arr : Arrangement) :
    (ringSizesOf (arrangementRings arr)).sum = arr.length := by
  unfold arrangementRings
  rw [sum_ringSizes_fold]
  simp [ringSizesOf]

/-! ### Renderer lemmas (claim C9) -/

theorem renderStep_total (bot : SantaBot) (fns : Scoring)
    (st : List (List String) × String × Int) (q : String × String) :
    (renderStep bot (some fns) st q).2.2
      = st.2.2 + gaveToTerm bot fns q.1 q.2 + receivedFromTerm bot fns q.1 q.2 := by
  simp only [renderStep]
  rw [ite_add_of_ne, ite_add_of_ne]

theorem renderStep_rings (bot : SantaBot) (fnsOpt : Option Scoring)
    (st : List (List String) × String × Int) (q : String × String) :
    (renderStep bot fnsOpt st q).1 = addPairToRings st.1 q.1 q.2 := by
  cases fnsOpt <;> simp only [renderStep]

theorem renderFold_total (bot : SantaBot) (fns : Scoring) (arr : Arrangement)
    (rings : List (List String)) (str : String) (t : Int) :
    (arr.foldl (renderStep bot (some fns)) (rings, str, t)).2.2
      = t + (arr.map
          (fun p => gaveToTerm bot fns p.1 p.2 + receivedFromTerm bot fns p.1 p.2)).sum := by
  induction arr generalizing rings str t with
  | nil => simp
  | cons q rest ih =>
    rw [List.foldl_cons]
    rcases hstep : renderStep bot (some fns) (rings, str, t) q with ⟨r2, s2, t2⟩
    have ht2 : t2 = t + gaveToTerm bot fns q.1 q.2 + receivedFromTerm bot fns q.1 q.2 := by
      have h := renderStep_total bot fns (rings, str, t) q
      rw [hstep] at h
      simpa using h
    rw [ih r2 s2 t2, ht2]
    simp only [List.map_cons, List.sum_cons]
    ring

theorem renderFold_fst (bot : SantaBot) (fnsOpt : Option Scoring) (arr : Arrangement)
    (rings : List (List String)) (str : String) (t : Int) :
    (arr.foldl (renderStep bot fnsOpt) (rings, str, t)).1
      = arr.foldl (fun rs p => addPairToRings rs p.1 p.2) rings := by
  induction arr generalizing rings str t with
  | nil => rfl
  | cons q rest ih =>
    rw [List.foldl_cons, List.foldl_cons]
    rcases hstep : renderStep bot fnsOpt (rings, str, t) q with ⟨r2, s2, t2⟩
    have hr2 : r2 = addPairToRings rings q.1 q.2 := by
      have h := renderStep_rings bot fnsOpt (rings, str, t) q
      rw [hstep] at h
      simpa using h
    rw [ih r2 s2 t2, hr2]

theorem renderFold_rings_nil (bot : SantaBot) (fnsOpt : Option Scoring)
    (arr : Arrangement) (str : String) (t : Int) :
    (arr.foldl (renderStep bot fnsOpt) ([], str, t)).1 = arrangementRings arr :=
  renderFold_fst bot fnsOpt arr [] str t

/-! ### Claim theorems -/

/-- Claim C1, counterexample: the result can contain a self-gift pair.  With
participants `[A, B, C]` and a seed stream under which A draws B and B draws
A, the pool at C's turn holds only C itself; the "exactly one candidate
remains" shortcut then assigns it, and the returned arrangement contains the
pair `("C", "C")` — giver equal to receiver. -/
theorem claim_C1_counterexample :
    generateArrangement (fun n => if n = 0 then 1 else 0) 1 ["A", "B", "C"]
      = some [("A", "B"), ("B", "A"), ("C", "C")] ∧
    ("C", "C") ∈ (generateArrangement (fun n => if n = 0 then 1 else 0) 1
      ["A", "B", "C"]).getD [] := by
  constructor
  · decide
  · decide

/-- Claim C1, amended: for every duplicate-free participant list of size ≥ 2
and every seed, every pair of the generated arrangement whose giver equals
its receiver has the *last* participant of the input list as its giver —
only the final giver, served unconditionally by the "exactly one candidate
remains" shortcut, can be paired with itself; all earlier givers pass
rejection sampling and never self-gift.  The result is therefore not always
a derangement. -/
theorem claim_C1 (stream : Nat → Nat) (fuel : Nat) (ps : List String)
    (res : Arrangement) (hnd : ps.Nodup) (hlen : 2 ≤ ps.length)
    (hgen : generateArrangement stream fuel ps = some res) :
    ∀ p ∈ res, p.1 = p.2 → ps.getLast? = some p.1 := by
  intro p hp hself
  unfold generateArrangement at hgen
  cases ha : assignLoop stream fuel ps ps 0 with
  | none => rw [ha] at hgen; cases hgen
  | some pre =>
    rw [ha] at hgen
    have hmem : p ∈ pre := generateArrangement_mem_pre ps res pre hgen p hp
    exact assignLoop_self_last stream fuel ps ps 0 pre rfl ha p hmem hself

/-- Claim C1, witness: on the `[A, B, C]` run that produces the self-pair
`("C", "C")`, the amended theorem applies and places it at the last input
participant. -/
theorem claim_C1_witness :
    (["A", "B", "C"] : List String).getLast? = some "C" :=
  claim_C1 (fun n => if n = 0 then 1 else 0) 1 ["A", "B", "C"]
    [("A", "B"), ("B", "A"), ("C", "C")] (by decide) (by decide) (by decide)
    ("C", "C") (by decide) rfl

/-- Claim C4: generated arrangements cover the participant set exactly — the
givers are a permutation of the input list, the receivers are a permutation
of the input list, and the ring sizes of the scorer's cycle decomposition
sum to the number of participants. -/
theorem claim_C4 (stream : Nat → Nat) (fuel : Nat) (ps : List String)
    (res : Arrangement) (hnd : ps.Nodup) (hlen : 2 ≤ ps.length)
    (hgen : generateArrangement stream fuel ps = some res) :
    List.Perm (res.map Prod.fst) ps ∧ List.Perm (res.map Prod.snd) ps ∧
    (ringSizesOf (arrangementRings res)).sum = ps.length := by
  obtain ⟨pre, ha, hperm⟩ := generateArrangement_perm stream fuel ps res hnd hgen
  have hfst : pre.map Prod.fst = ps := assignLoop_map_fst stream fuel ps ps 0 pre ha
  have hsndp : List.Perm (pre.map Prod.snd) ps :=
    assignLoop_map_snd_perm stream fuel ps ps 0 pre rfl ha
  refine ⟨?_, ?_, ?_⟩
  · have h := hperm.map Prod.fst
    rw [hfst] at h
    exact h
  · exact (hperm.map Prod.snd).trans hsndp
  · rw [sum_ringSizes_arrangementRings]
    have h1 : res.length = pre.length := hperm.length_eq
    have h2 : pre.length = ps.length := by
      rw [← hfst]
      exact (List.length_map pre Prod.fst).symm
    omega

/-- Claim C4, witness: the two-participant run `[A, B]` yields
`[(A, B), (B, A)]`, whose givers and receivers are permutations of the input
and whose single ring has size 2. -/
theorem claim_C4_witness :
    List.Perm ([("A", "B"), ("B", "A")].map Prod.fst) ["A", "B"] ∧
    List.Perm ([("A", "B"), ("B", "A")].map Prod.snd) ["A", "B"] ∧
    (ringSizesOf (arrangementRings [("A", "B"), ("B", "A")])).sum
      = (["A", "B"] : List String).length :=
  claim_C4 (fun _ => 1) 1 ["A", "B"] [("A", "B"), ("B", "A")]
    (by decide) (by decide) (by decide)

/-- Claim C2, counterexample: the source performs no minimum-size validation.
`generateArrangement` on a single-participant list succeeds and returns the
1-pair self-gift arrangement, rather than failing with an invalid-input
error as the claim demands. -/
theorem claim_C2_counterexample :
    generateArrangement (fun _ => 0) 1 ["OnlyOne"] = some [("OnlyOne", "OnlyOne")] := by
  decide

/-- Claim C2, amended: `generateArrangement` called on `["OnlyOne"]` does not
fail for any seed or fuel: the "exactly one candidate remains" shortcut
consumes no randomness and unconditionally returns the 1-pair self-gift
`[("OnlyOne", "OnlyOne")]`. -/
theorem claim_C2 (stream : Nat → Nat) (fuel : Nat) :
    generateArrangement stream fuel ["OnlyOne"] = some [("OnlyOne", "OnlyOne")] := rfl

/-- Claim C3: `scoreArrangement` is the sum, over the pairs, of the
`GaveTo` penalty at (numberOfYears − first index of the receiver in the
giver's history) and the `ReceivedFrom` penalty at (numberOfYears − first
index of the giver in the receiver's history) — each zero when absent —
plus one ring-penalty call; and on the history `A → [B]`, `B → [A]` with
penalties `GaveTo@1 = 10`, `ReceivedFrom@1 = 5` and zero ring penalty,
scoring `[(A, B)]` yields exactly 15. -/
theorem claim_C3 (bot : SantaBot) (arr : Arrangement) (fns : Scoring) :
    scoreArrangement bot arr fns
      = (arr.map
          (fun p => gaveToTerm bot fns p.1 p.2 + receivedFromTerm bot fns p.1 p.2)).sum
        + fns.rings (ringSizesOf (arrangementRings arr)) ∧
    scoreArrangement ⟨[("A", [some "B"]), ("B", [some "A"])]⟩ [("A", "B")]
      ⟨fun a y => match a with
        | Action.GaveTo => if y = 1 then 10 else 0
        | Action.ReceivedFrom => if y = 1 then 5 else 0,
       fun _ => 0⟩ = 15 :=
  ⟨scoreArrangement_eq bot arr fns, by decide⟩

/-- Claim C5: all three entry points are deterministic — equal seed streams
and equal remaining inputs give equal outputs (in this embedding every
entry point is a pure function of the seed stream it re-initializes). -/
theorem claim_C5 (stream₁ stream₂ : Nat → Nat) (streams₁ streams₂ : Nat → Nat → Nat)
    (bot₁ bot₂ : SantaBot) (fuel₁ fuel₂ : Nat) (i₁ i₂ : Int) (fns₁ fns₂ : Scoring)
    (ps₁ ps₂ : List String)
    (hs : stream₁ = stream₂) (hss : streams₁ = streams₂) (hb : bot₁ = bot₂)
    (hf : fuel₁ = fuel₂) (hi : i₁ = i₂) (hfns : fns₁ = fns₂) (hp : ps₁ = ps₂) :
    generateArrangement stream₁ fuel₁ ps₁ = generateArrangement stream₂ fuel₂ ps₂ ∧
    generateBestArrangement bot₁ streams₁ fuel₁ i₁ fns₁ ps₁
      = generateBestArrangement bot₂ streams₂ fuel₂ i₂ fns₂ ps₂ ∧
    getNumOptimalArrangements bot₁ streams₁ fuel₁ i₁ fns₁ ps₁
      = getNumOptimalArrangements bot₂ streams₂ fuel₂ i₂ fns₂ ps₂ := by
  subst hs hss hb hf hi hfns hp
  exact ⟨rfl, rfl, rfl⟩

/-- Claim C5, witness at concrete inputs. -/
theorem claim_C5_witness :
    generateArrangement (fun _ => 0) 1 ["A", "B"]
      = generateArrangement (fun _ => 0) 1 ["A", "B"] ∧
    generateBestArrangement ⟨[]⟩ (fun _ _ => 0) 1 2 ⟨fun _ _ => 0, fun _ => 0⟩ ["A", "B"]
      = generateBestArrangement ⟨[]⟩ (fun _ _ => 0) 1 2 ⟨fun _ _ => 0, fun _ => 0⟩ ["A", "B"] ∧
    getNumOptimalArrangements ⟨[]⟩ (fun _ _ => 0) 1 2 ⟨fun _ _ => 0, fun _ => 0⟩ ["A", "B"]
      = getNumOptimalArrangements ⟨[]⟩ (fun _ _ => 0) 1 2 ⟨fun _ _ => 0, fun _ => 0⟩ ["A", "B"] :=
  claim_C5 _ _ _ _ _ _ _ _ _ _ _ _ _ _ rfl rfl rfl rfl rfl rfl rfl

/-- Claim C6: with a penalty policy that is identically zero, the best-
arrangement search stops after its first iteration: the result is exactly
the first iteration's generated arrangement (only the iteration-0 sub-seed
stream is ever consulted), for every iteration budget ≥ 1. -/
theorem claim_C6 (bot : SantaBot) (streams : Nat → Nat → Nat) (fuel : Nat)
    (fns : Scoring) (ps : List String) (i : Int) (hi : 1 ≤ i)
    (ha : ∀ a y, fns.actions a y = 0) (hr : ∀ s, fns.rings s = 0) :
    generateBestArrangement bot streams fuel i fns ps
      = (generateArrangement (streams 0) fuel ps).map some := by
  obtain ⟨n, hn⟩ : ∃ n, i.toNat = n + 1 := ⟨i.toNat - 1, by omega⟩
  unfold generateBestArrangement
  rw [hn]
  cases hg : generateArrangement (streams 0) fuel ps with
  | none => simp [bestLoop, hg]
  | some staged =>
    have hz : scoreArrangement bot staged fns = 0 :=
      scoreArrangement_zero bot staged fns ha hr
    simp [bestLoop, hg, hz]

/-- Claim C6, witness: budget 3 with the zero policy returns the first
iteration's arrangement. -/
theorem claim_C6_witness :
    generateBestArrangement ⟨[]⟩ (fun _ _ => 1) 1 3 ⟨fun _ _ => 0, fun _ => 0⟩ ["A", "B"]
      = (generateArrangement (fun _ => 1) 1 ["A", "B"]).map some :=
  claim_C6 ⟨[]⟩ (fun _ _ => 1) 1 ⟨fun _ _ => 0, fun _ => 0⟩ ["A", "B"] 3
    (by decide) (fun _ _ => rfl) (fun _ => rfl)

/-- Claim C7, counterexample: with an iteration budget of 0, neither
optimizer entry point fails — the count entry point returns the count 0 and
the best-arrangement entry point returns the JS `null`, both as ordinary
results. -/
theorem claim_C7_counterexample :
    getNumOptimalArrangements ⟨[]⟩ (fun _ _ => 0) 1 0 ⟨fun _ _ => 0, fun _ => 0⟩ ["A", "B"]
      = some 0 ∧
    generateBestArrangement ⟨[]⟩ (fun _ _ => 0) 1 0 ⟨fun _ _ => 0, fun _ => 0⟩ ["A", "B"]
      = some none :=
  ⟨rfl, rfl⟩

/-- Claim C7, amended: neither optimizer entry point validates the iteration
budget: for every budget ≤ 0 the loop body never runs, so
`getNumOptimalArrangements` returns the count 0 and
`generateBestArrangement` returns the JS `null` (no arrangement), with no
invalid-input failure. -/
theorem claim_C7 (bot : SantaBot) (streams : Nat → Nat → Nat) (fuel : Nat)
    (fns : Scoring) (ps : List String) (i : Int) (hi : i ≤ 0) :
    getNumOptimalArrangements bot streams fuel i fns ps = some 0 ∧
    generateBestArrangement bot streams fuel i fns ps = some none := by
  have h0 : i.toNat = 0 := Int.toNat_of_nonpos hi
  constructor
  · unfold getNumOptimalArrangements
    rw [h0]
    rfl
  · unfold generateBestArrangement
    rw [h0]
    rfl

/-- Claim C7, witness at budget −1. -/
theorem claim_C7_witness :
    getNumOptimalArrangements ⟨[]⟩ (fun _ _ => 0) 1 (-1) ⟨fun _ _ => 0, fun _ => 0⟩ ["A", "B"]
      = some 0 ∧
    generateBestArrangement ⟨[]⟩ (fun _ _ => 0) 1 (-1) ⟨fun _ _ => 0, fun _ => 0⟩ ["A", "B"]
      = some none :=
  claim_C7 ⟨[]⟩ (fun _ _ => 0) 1 ⟨fun _ _ => 0, fun _ => 0⟩ ["A", "B"] (-1) (by decide)

/-- Claim C10: `scoreArrangement` queries the action-penalty function only at
positive `yearsAgo` values — stated observationally: two policies that agree
on all `yearsAgo ≥ 1` (and have equal ring penalties) score every arrangement
identically, for every history store. -/
theorem claim_C10 (bot : SantaBot) (arr : Arrangement) (fns fns₂ : Scoring)
    (ha : ∀ a y, 1 ≤ y → fns.actions a y = fns₂.actions a y)
    (hr : ∀ s, fns.rings s = fns₂.rings s) :
    scoreArrangement bot arr fns = scoreArrangement bot arr fns₂ := by
  rw [scoreArrangement_eq, scoreArrangement_eq]
  rw [map_sum_congr arr _ _ (fun p hp => by
    rw [gaveToTerm_agree bot fns fns₂ p.1 p.2 ha,
      receivedFromTerm_agree bot fns fns₂ p.1 p.2 ha])]
  rw [hr]

/-- Claim C10, witness: a policy returning 3 everywhere and one returning 3
only at positive years (7 otherwise) score identically. -/
theorem claim_C10_witness :
    scoreArrangement ⟨[("A", [some "B"])]⟩ [("A", "B")] ⟨fun _ _ => 3, fun _ => 1⟩
      = scoreArrangement ⟨[("A", [some "B"])]⟩ [("A", "B")]
          ⟨fun _ y => if 1 ≤ y then 3 else 7, fun _ => 1⟩ :=
  claim_C10 _ _ _ _ (fun a y hy => by simp [hy]) (fun s => rfl)

/-- Claim C9: the grand total printed after "Total Penalty: " by the renderer
(which accumulates only the nonzero per-pair and ring penalties) equals
`scoreArrangement` on the same arrangement, history store and policy. -/
theorem claim_C9 (bot : SantaBot) (arr : Arrangement) (fns : Scoring) :
    ∃ s, stagedArrangementToString bot arr (some fns)
      = s ++ "\nTotal Penalty: " ++ toString (scoreArrangement bot arr fns) := by
  unfold stagedArrangementToString
  simp only [renderFold_rings_nil, renderFold_total, zero_add]
  rw [ite_add_of_ne]
  rw [← scoreArrangement_eq]
  exact ⟨_, rfl⟩

/-- Claim C8: applying a non-empty arrangement with pairwise-distinct givers
raises the common number of years by exactly one, and re-reading each giver's
1-year-ago slot (the last slot of its sequence) returns exactly the assigned
receiver. -/
theorem claim_C8 (bot : SantaBot) (arr : Arrangement) (hne : arr ≠ [])
    (hnd : (arr.map Prod.fst).Nodup) :
    getNumYears (applyArrangement bot arr) = getNumYears bot + 1 ∧
    ∀ p ∈ arr, ∃ seq,
      mapGet (applyArrangement bot arr).participants p.1 = some seq ∧
      seq.getLast? = some (some p.2) := by
  constructor
  · exact getNumYears_applyArrangement bot arr hne hnd
  · intro p hp
    obtain ⟨seq, h1, h2, _⟩ :=
      applyFold_get (getNumYears bot) arr bot.participants hnd
        (fun p₂ _ v hv => length_le_getNumYears bot p₂.1 v (mapGet_mem _ _ _ hv)) p hp
    refine ⟨seq, ?_, h2⟩
    rw [applyArrangement_participants]
    exact h1

/-- Claim C8, witness: applying `[(A,B), (B,A)]` to the empty store advances
the number of years from 0 to 1. -/
theorem claim_C8_witness :
    getNumYears (applyArrangement ⟨[]⟩ [("A", "B"), ("B", "A")])
      = getNumYears (⟨[]⟩ : SantaBot) + 1 :=
  (claim_C8 ⟨[]⟩ [("A", "B"), ("B", "A")] (by decide) (by decide)).1

end Santa
